import Mathlib

/-!
Verification of `scripts/release/relnotes.py` (Bazel release-notes generator).

Strings are modelled as `List Char` (Python `str` is a sequence of code
points).  Python string methods (`strip`, `lower`, `split`, `rstrip`,
`startswith`, `endswith`, `partition`) and the concrete regular expressions
appearing in the script are translated character by character; ASCII case
mapping and ASCII digits are used, matching the data the script processes.
External effects (git subprocesses, the GitHub label lookup) are modelled as
explicit inputs: a commit is a pair of its identifier and its message lines,
and the label service is a function parameter.
-/

namespace Relnotes

/-- Python strings, modelled as lists of characters. -/
abbrev Str := List Char

/-- Python `str.isspace` membership for the characters that `str.strip()`
removes (ASCII whitespace, as produced by git output). -/
def isPySpace (c : Char) : Bool :=
  c == ' ' || c == '\t' || c == '\n' || c == '\r' || c == '\x0b' || c == '\x0c'

/-- Remove trailing characters satisfying `p` (Python `str.rstrip` family). -/
def dropTrail (p : Char → Bool) (l : Str) : Str :=
  (l.reverse.dropWhile p).reverse

/-- Python `str.lstrip()` (no argument: whitespace). -/
def pyLstrip (l : Str) : Str := l.dropWhile isPySpace

/-- Python `str.rstrip()` (no argument: whitespace). -/
def pyRstrip (l : Str) : Str := dropTrail isPySpace l

/-- Python `str.strip()` (no argument: whitespace). -/
def pyStrip (l : Str) : Str := pyRstrip (pyLstrip l)

/-- Python `str.rstrip(".")`. -/
def rstripDots (l : Str) : Str := dropTrail (fun c => c == '.') l

/-- Python `str.lower()` on the ASCII range (`Char.toLower` maps A-Z). -/
def toLowerStr (l : Str) : Str := l.map Char.toLower

/-- Python `s.startswith(pat)`: `pat` is an initial segment of `s`.
(Defined directly so that it reduces by iteration on `pat`.) -/
def startsWith : Str → Str → Bool
  | [], _ => true
  | _ :: _, [] => false
  | p :: ps, c :: cs => p == c && startsWith ps cs

/-- Python `s.endswith(pat)`: `pat` is a final segment of `s`. -/
def endsWith (pat s : Str) : Bool := startsWith pat.reverse s.reverse

/-- Python `str.split()` with no argument: split on whitespace runs and
drop empty fields.  Accumulator `cur` holds the current word reversed. -/
def pySplitAux : Str → Str → List Str
  | [], cur => if cur.isEmpty then [] else [cur.reverse]
  | c :: rest, cur =>
    if isPySpace c then
      if cur.isEmpty then pySplitAux rest [] else cur.reverse :: pySplitAux rest []
    else pySplitAux rest (c :: cur)

/-- Python `str.split()` with no argument. -/
def pySplit (l : Str) : List Str := pySplitAux l []

/-- Python `" ".join(xs)`. -/
def joinSp : List Str → Str
  | [] => []
  | [x] => x
  | x :: y :: ys => x ++ ' ' :: joinSp (y :: ys)

/-- Python `", ".join(xs)`. -/
def joinCommaSp : List Str → Str
  | [] => []
  | [x] => x
  | x :: y :: ys => x ++ ',' :: ' ' :: joinCommaSp (y :: ys)

/-- Qualifier captured by the group in `^RELNOTES(?:\[(INC|NEW)\])?:`. -/
inductive RelQual
  | plain
  | inc
  | new
deriving DecidableEq

/-- `re.match(r"^RELNOTES(?:\[(INC|NEW)\])?:", line)` from
`extract_relnotes`: the qualifier and the length of the matched text
(`len(m[0])`).  The three possible matches are mutually exclusive prefixes. -/
def relnotesMatch? (l : Str) : Option (RelQual × Nat) :=
  if startsWith ("RELNOTES[INC]:".toList) l then some (RelQual.inc, 14)
  else if startsWith ("RELNOTES[NEW]:".toList) l then some (RelQual.new, 14)
  else if startsWith ("RELNOTES:".toList) l then some (RelQual.plain, 9)
  else none

/-- `line.startswith("PiperOrigin-RevId:")` or emptiness: the condition under
which `extract_relnotes` sets `in_relnote = False`. -/
def lineResets (l : Str) : Bool :=
  l.isEmpty || startsWith ("PiperOrigin-RevId:".toList) l

/-- One iteration of the line loop of `extract_relnotes`, carrying the state
`(in_relnote, relnote_lines)`.  Mirrors relnotes.py lines 33-44. -/
def relnoteStep (st : Bool × List Str) (line : Str) : Bool × List Str :=
  let inR := if lineResets line then false else st.1
  match relnotesMatch? line with
  | some q =>
    let l1 := line.drop q.2
    let l2 := if q.1 = RelQual.inc then ("**[Incompatible]** ".toList) ++ pyStrip l1 else l1
    let l3 := pyStrip l2
    (true, if l3.isEmpty then st.2 else st.2 ++ [l3])
  | none =>
    let l3 := pyStrip line
    (inR, if inR && !l3.isEmpty then st.2 ++ [l3] else st.2)

/-- The `relnote_lines` list accumulated by the loop of `extract_relnotes`. -/
def relnoteLines (lines : List Str) : List Str :=
  (lines.foldl relnoteStep (false, [])).2

/-- `relnote.strip().lower().rstrip(".")` (relnotes.py line 46). -/
def normalizeNote (l : Str) : Str := rstripDots (toLowerStr (pyStrip l))

/-- The sentinel test of relnotes.py line 47:
`relnote_lower == "n/a" or relnote_lower == "none" or not relnote_lower`. -/
def isSentinelB (l : Str) : Bool :=
  l == "n/a".toList || l == "none".toList || l.isEmpty

/-- Match of `\[\d+\.\d+\.\d\]\s?` at the head of the list, returning the
remainder after the matched text.  The version pattern in relnotes.py line 51
uses `\d+` for major and minor but a single `\d` for the patch component,
and consumes at most one following whitespace character. -/
def vmMatch? (l : Str) : Option Str :=
  match l with
  | '[' :: r1 =>
    let d1 := r1.takeWhile Char.isDigit
    if d1.isEmpty then none else
    match r1.drop d1.length with
    | '.' :: r2 =>
      let d2 := r2.takeWhile Char.isDigit
      if d2.isEmpty then none else
      (match r2.drop d2.length with
      | '.' :: c3 :: ']' :: r4 =>
        if c3.isDigit then
          some (match r4 with
            | w :: r5 => if isPySpace w then r5 else w :: r5
            | [] => [])
        else none
      | _ => none)
    | _ => none
  | _ => none

/-- `re.sub(r"\[\d+\.\d+\.\d\]\s?", "", s)`: left-to-right scan replacing
every non-overlapping match with the empty string.  Implemented with a fuel
argument equal to the input length, which always suffices because every match
consumes at least seven characters. -/
def subVMAux : Nat → Str → Str
  | 0, l => l
  | _ + 1, [] => []
  | n + 1, c :: rest =>
    match vmMatch? (c :: rest) with
    | some r => subVMAux n r
    | none => c :: subVMAux n rest

/-- `re.sub(r"\[\d+\.\d+\.\d\]\s?", "", s)` (relnotes.py lines 50-52). -/
def subVM (l : Str) : Str := subVMAux l.length l

/-- `re.search(r"\(\#[0-9]+\)$", tok)`: the matched text when `tok` ends in
an issue reference `(#digits)`.  The pattern anchors at the end of the
string, so a match exists exactly when the token ends with `)` preceded by a
nonempty digit run preceded by `(#`; the matched text is that suffix. -/
def issueRef? (tok : Str) : Option Str :=
  match tok.reverse with
  | ')' :: rest =>
    let ds := rest.takeWhile Char.isDigit
    (match rest.drop ds.length with
    | '#' :: '(' :: _ =>
      if ds.isEmpty then none else some ('(' :: '#' :: (ds.reverse ++ [')']))
    | _ => none)
  | _ => none

/-- The last whitespace-delimited token of the (stripped) first message line:
`commit_message_lines[0].strip().split()[-1]`.  Python raises `IndexError`
when the split is empty; the model returns `none` there, and every theorem
touching this path carries hypotheses keeping it inside Python's defined
behaviour. -/
def lastTok? (l : Str) : Option Str := (pySplit (pyStrip l)).getLast?

/-- `extract_relnotes(commit_message_lines, is_major_release)`
(relnotes.py lines 29-60).  Returns `none` exactly where Python returns
`None`.  For the empty message list Python's `commit_message_lines[0]` is
modelled by `headD []` (git always yields at least one line). -/
def extract_relnotes (lines : List Str) (is_major : Bool) : Option Str :=
  let relnote := joinSp (relnoteLines lines)
  if isSentinelB (normalizeNote relnote) then
    if is_major then none
    else some (subVM (pyStrip (lines.headD [])))
  else
    match lastTok? (lines.headD []) with
    | none => some relnote
    | some tok =>
      match issueRef? tok with
      | none => some relnote
      | some ref => some (relnote ++ ' ' :: pyStrip ref)

/-- `re.match(r"^Automated rollback of commit ([\dA-Fa-f]+)", line)`:
the captured hexadecimal identifier, or `none` when the line does not match
(relnotes.py line 76). -/
def rollbackTarget? (line : Str) : Option Str :=
  if startsWith ("Automated rollback of commit ".toList) line then
    let h := (line.drop 29).takeWhile (fun c =>
      c.isDigit || ('A' ≤ c && c ≤ 'F') || ('a' ≤ c && c ≤ 'f'))
    if h.isEmpty then none else some h
  else none

/-- The commit loop of `get_relnotes_between` (relnotes.py lines 72-83):
walks the commits (newest first), skipping commits already in the
rolled-back set, recording the target of rollback commits, and collecting
extracted notes.  A commit is its identifier paired with its message lines
(the output of `git show -s <commit> --pretty=format:%B`). -/
def grbGo (major : Bool) : List (Str × List Str) → List Str → List Str → List Str
  | [], _, acc => acc
  | (cid, lines) :: rest, rb, acc =>
    if rb.contains cid then grbGo major rest rb acc
    else
      match rollbackTarget? (lines.headD []) with
      | some t => grbGo major rest (t :: rb) acc
      | none =>
        match extract_relnotes lines major with
        | some n => grbGo major rest rb (acc ++ [n])
        | none => grbGo major rest rb acc

/-- `get_relnotes_between(base, head, is_major_release)` (relnotes.py lines
63-84), with the `git rev-list`/`git show` effects replaced by the commit
list itself (newest first, each with its message lines). -/
def get_relnotes_between (commits : List (Str × List Str)) (major : Bool) : List Str :=
  grbGo major commits [] []

/-- `bool(re.fullmatch(r"\d+.0.0", current_release))` (relnotes.py line
171).  The two dots in the pattern are unescaped, so they match any
character other than a newline; the regex backtracks over the length of the
leading digit run, modelled by trying every split point. -/
def isMajorRelease (l : Str) : Bool :=
  (List.range (l.length + 1)).any fun k =>
    decide (1 ≤ k) && (l.take k).all Char.isDigit &&
      match l.drop k with
      | [a, z1, b, z2] => !(a == '\n') && z1 == '0' && !(b == '\n') && z2 == '0'
      | _ => false

/-- The release pattern as the specification words it: one or more digits,
a literal dot, `0`, a literal dot, `0`, and nothing else.  Stated from the
spec for comparison with `isMajorRelease`, the translation of the code. -/
def specMajorRelease (l : Str) : Bool :=
  decide (5 ≤ l.length) && (l.take (l.length - 4)).all Char.isDigit &&
    l.drop (l.length - 4) == ".0.0".toList

/-- `re.sub(r"rc\d", "", s)` (relnotes.py line 163): every occurrence of
`rc` followed by a single digit is removed, anywhere in the string. -/
def subRcDigit : Str → Str
  | [] => []
  | [c] => [c]
  | [c1, c2] => [c1, c2]
  | c1 :: c2 :: c3 :: rest =>
    if c1 = 'r' ∧ c2 = 'c' ∧ c3.isDigit then subRcDigit rest
    else c1 :: subRcDigit (c2 :: c3 :: rest)

/-- Whether `rc` followed by a digit occurs anywhere in the string. -/
def hasRcDigit : Str → Bool
  | [] => false
  | [_] => false
  | [_, _] => false
  | c1 :: c2 :: c3 :: rest =>
    if c1 = 'r' ∧ c2 = 'c' ∧ c3.isDigit then true
    else hasRcDigit (c2 :: c3 :: rest)

/-- The release-branch arm of the `current_release` resolution (relnotes.py
lines 162-163): when the checked-out ref name starts with `release-`, strip
that prefix and apply `re.sub(r"rc\d", "", …)`.  Returns `none` when the
ref does not start with `release-` (the script then falls back to
`git describe --tags`, an external call outside this arm). -/
def resolveReleaseBranch? (ref : Str) : Option Str :=
  if startsWith ("release-".toList) ref then
    some (subRcDigit (ref.drop 8))
  else none

/-- Python string comparison `a <= b` (lexicographic on code points),
used through `list.sort()` / `sorted()`. -/
def lexLe : Str → Str → Bool
  | [], _ => true
  | _ :: _, [] => false
  | a :: as, b :: bs =>
    if a.toNat = b.toNat then lexLe as bs else decide (a.toNat < b.toNat)

/-- Python string comparison `a < b`. -/
def lexLt : Str → Str → Bool
  | _, [] => false
  | [], _ :: _ => true
  | a :: as, b :: bs =>
    if a.toNat = b.toNat then lexLt as bs else decide (a.toNat < b.toNat)

/-- The proposition form of `lexLe`, the relation `tags.sort()` sorts by. -/
def LexLeP (a b : Str) : Prop := lexLe a b = true

instance : DecidableRel LexLeP := fun a b => decEq (lexLe a b) true

/-- Python `list.index`: position of the first occurrence (the argument is
always present where the script calls it). -/
def pyIndex : List Str → Str → Nat
  | [], _ => 0
  | a :: t, x => if a = x then 0 else pyIndex t x + 1

/-- The `last_release` computation (relnotes.py lines 173-180): `tags` is
the non-prerelease tag list; if `current` already appears the script errors
out (modelled as `none`), otherwise `current` is appended, the list is
sorted, and the element before `current` is selected — Python indexing
`tags[i - 1]` wraps to the last element when `i = 0`. -/
def lastRelease? (tags : List Str) (current : Str) : Option Str :=
  if tags.contains current then none
  else
    let ts := List.insertionSort LexLeP (tags ++ [current])
    let i := pyIndex ts current
    if i = 0 then ts.getLast? else ts.get? (i - 1)

/-- The note filter of relnotes.py lines 194-199: drop the current-range
notes that occur in the prior-release note set, then reverse into
chronological order. -/
def filteredRelnotes (cur prior : List Str) : List Str :=
  (cur.filter (fun n => !(prior.contains n))).reverse

/-- `re.sub(r"\(|\#|\)", "", s)` (relnotes.py line 118): delete every
parenthesis and hash character. -/
def issueDigits (refT : Str) : Str :=
  refT.filter (fun c => !(c == '(' || c == '#' || c == ')'))

/-- `re.sub("team-", "", s)` (relnotes.py line 123): every occurrence of
`team-` is removed. -/
def subTeam : Str → Str
  | [] => []
  | 't' :: 'e' :: 'a' :: 'm' :: '-' :: rest => subTeam rest
  | c :: rest => c :: subTeam rest

/-- Ordered-dictionary insertion: append the note under the key if present,
otherwise add the key at the end (Python dict insertion order). -/
def addNote : List (Str × List Str) → Str → Str → List (Str × List Str)
  | [], k, n => [(k, [n])]
  | (k', v) :: rest, k, n =>
    if k' = k then (k', v ++ [n]) :: rest else (k', v) :: addNote rest k n

/-- Key comparison for `dict(sorted(categorized_relnotes.items()))`: the
keys are distinct, so Python's tuple order reduces to key order. -/
def PairLeP (p q : Str × List Str) : Prop := lexLe p.1 q.1 = true

instance : DecidableRel PairLeP := fun p q => decEq (lexLe p.1 q.1) true

/-- The note loop of `get_categorized_relnotes` (relnotes.py lines 114-128),
parameterised by the external label service `getLabel` (`get_label`, an
authenticated GitHub lookup).  Returns `none` where Python raises
`IndexError` (`relnote.strip().split()[-1]` on a note with no tokens). -/
def catGo (getLabel : Str → Option Str) :
    List Str → List (Str × List Str) → Option (List (Str × List Str))
  | [], m => some m
  | n :: ns, m =>
    match lastTok? n with
    | none => none
    | some tok =>
      let category :=
        match issueRef? tok with
        | none => "General".toList
        | some refT =>
          match getLabel (issueDigits (pyStrip refT)) with
          | none => "General".toList
          | some lab => subTeam lab
      catGo getLabel ns (addNote m category n)

/-- `get_categorized_relnotes(filtered_notes)` (relnotes.py lines 111-130):
group notes by the team label of their trailing issue reference, then sort
the categories by name. -/
def get_categorized_relnotes (getLabel : Str → Option Str) (notes : List Str) :
    Option (List (Str × List Str)) :=
  (catGo getLabel notes []).map (List.insertionSort PairLeP)

/-- Literal substring containment: the co-author exclusion as the
specification words it ("every co-author line containing that domain").
Stated from the spec for comparison with `searchGoogleDomain`, the
translation of the code's regex search. -/
def containsSub (l pat : Str) : Bool :=
  (List.range (l.length + 1)).any fun i => startsWith pat (l.drop i)

/-- `re.search("@google.com", coauthor)` (relnotes.py line 149).  The dot
in the pattern is an unescaped regex metacharacter, so the search succeeds
whenever the line contains `@google`, then any single character other than
a newline, then `com`. -/
def searchGoogleDomain (l : Str) : Bool :=
  (List.range (l.length + 1)).any fun i =>
    startsWith ("@google".toList) (l.drop i) &&
      (match (l.drop i).drop 7 with
      | c :: rest => !(c == '\n') && startsWith ("com".toList) rest
      | [] => false)

/-- `author.partition("|")[0]`: the text before the first `|`. -/
def beforeBar (l : Str) : Str := l.takeWhile (fun c => !(c == '|'))

/-- The primary-author set of `get_external_authors_between` (relnotes.py
lines 137-140): from `git log --format=%aN|%aE` lines, keep those not
ending in `@google.com`, take the name part, right-strip it, and form the
set (modelled as a deduplicated list). -/
def primaryAuthors (authorLines : List Str) : List Str :=
  ((authorLines.filter (fun l => !(endsWith ("@google.com".toList) l))).map
    (fun l => pyRstrip (beforeBar l))).dedup

/-- Strip of a co-author trailer (relnotes.py line 151):
`re.sub(r"Co-authored-by: |<.*?>", "", coauthor)` — remove every occurrence
of the literal prefix text and every angle-bracketed span (lazy, not across
a newline) — followed by whitespace collapsing via `split`/`join`.  Fuel
equals the input length, which suffices since every step consumes at least
one character. -/
def subCoauthorAux : Nat → Str → Str
  | 0, l => l
  | _ + 1, [] => []
  | n + 1, c :: rest =>
    if startsWith ("Co-authored-by: ".toList) (c :: rest) then
      subCoauthorAux n (rest.drop 15)
    else if c == '<' then
      let seg := rest.takeWhile (fun d => !(d == '>') && !(d == '\n'))
      match rest.drop seg.length with
      | '>' :: r2 => subCoauthorAux n r2
      | _ => c :: subCoauthorAux n rest
    else c :: subCoauthorAux n rest

/-- One cleaned co-author display name (relnotes.py lines 150-152). -/
def cleanCoauthor (l : Str) : Str :=
  joinSp (pySplit (subCoauthorAux l.length l))

/-- The co-author list of `get_external_authors_between` (relnotes.py lines
147-152): keep nonempty trailer lines on which the `@google.com` regex
search (unescaped dot) fails, and clean each. -/
def coauthorNames (coauthorLines : List Str) : List Str :=
  (coauthorLines.filter
    (fun l => !l.isEmpty && !(searchGoogleDomain l))).map
    cleanCoauthor

/-- `authors.union(coauthors)` as a deduplicated list (set semantics:
membership is exact string equality). -/
def unionNames (xs ys : List Str) : List Str := (xs ++ ys).dedup

/-- `sorted(…, key=str.casefold)`: case-insensitive comparison (ASCII case
folding, as `str.casefold` acts on the ASCII range). -/
def CfLeP (a b : Str) : Prop := lexLe (toLowerStr a) (toLowerStr b) = true

instance : DecidableRel CfLeP := fun a b =>
  decEq (lexLe (toLowerStr a) (toLowerStr b)) true

/-- `get_external_authors_between(base, head)` (relnotes.py lines 133-153),
with the two `git log` invocations replaced by their output lines: the
`%aN|%aE` author lines and the `Co-authored-by` trailer lines. -/
def get_external_authors_between (authorLines coauthorLines : List Str) : Str :=
  joinCommaSp (List.insertionSort CfLeP
    (unionNames (primaryAuthors authorLines) (coauthorNames coauthorLines)))

/-- The stripped non-blank lines of a relnotes block: the content the loop
of `extract_relnotes` captures from the lines of one block. -/
def captureLines (ls : List Str) : List Str :=
  (ls.map pyStrip).filter (fun l => !l.isEmpty)

/-- The subject-line cleanup as claim C3 words it: remove a leading
`[x.y.z]` version marker and nothing else.  Stated from the spec for
comparison with `subVM`, the translation of the code's global
substitution. -/
def specStripLeadingVM (l : Str) : Str :=
  match vmMatch? l with
  | some r => r
  | none => l

/-! ## Order lemmas for the string comparisons -/

theorem lexLe_refl (a : Str) : lexLe a a = true := by
  induction a with
  | nil => rfl
  | cons c cs ih => simp [lexLe, ih]

theorem lexLe_total (a b : Str) : lexLe a b = true ∨ lexLe b a = true := by
  induction a generalizing b with
  | nil => left; rfl
  | cons c cs ih =>
    cases b with
    | nil => right; rfl
    | cons d ds =>
      by_cases h : c.toNat = d.toNat
      · rcases ih ds with h1 | h1
        · left; simp [lexLe, h, h1]
        · right; simp [lexLe, h.symm, h1]
      · simp only [lexLe]
        rw [if_neg h, if_neg (fun hh => h hh.symm)]
        simp only [decide_eq_true_eq]
        omega

theorem lexLe_trans (a b c : Str) (h1 : lexLe a b = true)
    (h2 : lexLe b c = true) : lexLe a c = true := by
  induction a generalizing b c with
  | nil => rfl
  | cons x xs ih =>
    cases b with
    | nil => simp [lexLe] at h1
    | cons y ys =>
      cases c with
      | nil => simp [lexLe] at h2
      | cons z zs =>
        simp only [lexLe] at h1 h2 ⊢
        split_ifs at h1 h2 ⊢ with hab hbc hac
        all_goals try simp only [decide_eq_true_eq] at h1 h2 ⊢
        all_goals first
          | exact ih ys zs h1 h2
          | omega

theorem lexLt_not_le (a b : Str) (h : lexLt a b = true) : lexLe b a = false := by
  induction a generalizing b with
  | nil =>
    cases b with
    | nil => simp [lexLt] at h
    | cons d ds => rfl
  | cons c cs ih =>
    cases b with
    | nil => simp [lexLt] at h
    | cons d ds =>
      simp only [lexLt] at h
      simp only [lexLe]
      by_cases hcd : c.toNat = d.toNat
      · rw [if_pos hcd] at h
        rw [if_pos hcd.symm]
        exact ih ds h
      · rw [if_neg hcd] at h
        rw [if_neg (fun hh => hcd hh.symm)]
        simp only [decide_eq_true_eq] at h
        simp only [decide_eq_false_iff_not]
        omega

instance : IsTotal Str LexLeP := ⟨fun a b => lexLe_total a b⟩

instance : IsTrans Str LexLeP := ⟨fun a b c => lexLe_trans a b c⟩

instance : IsTotal Str CfLeP :=
  ⟨fun a b => lexLe_total (toLowerStr a) (toLowerStr b)⟩

instance : IsTrans Str CfLeP :=
  ⟨fun a b c h1 h2 => lexLe_trans (toLowerStr a) (toLowerStr b) (toLowerStr c) h1 h2⟩

/-! ## C5: the major-release test -/

/-- C5, counterexample: the dots in `re.fullmatch(r"\d+.0.0", …)` are
unescaped and match any character, so the string `10000` is classified as a
major release although it does not match `<digits>.0.0` with literal
dots. -/
theorem isMajorRelease_cex :
    isMajorRelease ("10000".toList) = true
    ∧ specMajorRelease ("10000".toList) = false := by decide

/-- C5, amended: `is_major_release` is true exactly when the release string
is one or more digits followed by any non-newline character, the digit `0`,
any non-newline character, and the digit `0` — the unescaped dots of the
pattern `\d+.0.0` act as wildcards. -/
theorem isMajorRelease_iff (l : Str) :
    isMajorRelease l = true ↔
      ∃ ds a b, l = ds ++ [a, '0', b, '0'] ∧ ds ≠ [] ∧
        ds.all Char.isDigit = true ∧ a ≠ '\n' ∧ b ≠ '\n' := by
  constructor
  · intro h
    rw [isMajorRelease, List.any_eq_true] at h
    obtain ⟨k, hk, hf⟩ := h
    rw [List.mem_range] at hk
    simp only [Bool.and_eq_true, decide_eq_true_eq] at hf
    obtain ⟨⟨hk1, hdig⟩, hm⟩ := hf
    rcases hdrop : l.drop k with _ | ⟨a, _ | ⟨z1, _ | ⟨b, _ | ⟨z2, _ | _⟩⟩⟩⟩ <;>
      rw [hdrop] at hm <;> simp at hm
    obtain ⟨⟨⟨ha, hz1⟩, hb⟩, hz2⟩ := hm
    subst hz1; subst hz2
    refine ⟨l.take k, a, b, ?_, ?_, ?_, ha, hb⟩
    · rw [← hdrop, List.take_append_drop]
    · have h4 : (l.drop k).length = 4 := by rw [hdrop]; rfl
      rw [List.length_drop] at h4
      have hlk : l.length = k + 4 := by omega
      intro hnil
      have hlen0 := congrArg List.length hnil
      rw [List.length_take] at hlen0
      simp only [List.length_nil] at hlen0
      omega
    · rw [List.all_eq_true] at hdig ⊢
      exact fun x hx => hdig x hx
  · rintro ⟨ds, a, b, rfl, hne, hdig, ha, hb⟩
    rw [isMajorRelease, List.any_eq_true]
    refine ⟨ds.length, ?_, ?_⟩
    · rw [List.mem_range, List.length_append]
      simp only [List.length_cons, List.length_nil]
      omega
    · simp only [Bool.and_eq_true, decide_eq_true_eq]
      refine ⟨⟨?_, ?_⟩, ?_⟩
      · have := List.length_pos.mpr hne
        omega
      · rw [List.take_left]
        exact hdig
      · rw [List.drop_left]
        simp only [Bool.and_eq_true, Bool.not_eq_true', beq_eq_false_iff_ne]
        exact ⟨⟨⟨ha, rfl⟩, hb⟩, rfl⟩

/-! ## C4: deduplication and reversal of the note list -/

/-- C4, counterexample: with current-range notes `["A", "B", "C"]` (newest
first) and prior note set `{"B"}`, the script's output is `["C", "A"]`
(filter, then reverse into oldest-first order), not `["A", "C"]` as the
claim's example states. -/
theorem filteredRelnotes_cex :
    filteredRelnotes ["A".toList, "B".toList, "C".toList] ["B".toList]
        = ["C".toList, "A".toList]
    ∧ filteredRelnotes ["A".toList, "B".toList, "C".toList] ["B".toList]
        ≠ ["A".toList, "C".toList] := by decide

/-- C4, amended: the deduplication keeps exactly the current-range notes
that are not an exact string match of a prior-range note, preserving their
relative order (the un-reversed output is a sublist of the input), and then
reverses the list into chronological order; the example input yields
`["C", "A"]`. -/
theorem filteredRelnotes_spec :
    (∀ cur prior : List Str,
        (filteredRelnotes cur prior).reverse.Sublist cur
        ∧ ∀ n, n ∈ filteredRelnotes cur prior ↔ n ∈ cur ∧ ¬n ∈ prior)
    ∧ filteredRelnotes ["A".toList, "B".toList, "C".toList] ["B".toList]
        = ["C".toList, "A".toList] := by
  refine ⟨fun cur prior => ⟨?_, fun n => ?_⟩, by decide⟩
  · rw [filteredRelnotes, List.reverse_reverse]
    exact List.filter_sublist cur
  · rw [filteredRelnotes]
    simp [List.mem_filter, List.contains, List.elem_eq_mem]

/-! ## C9: release-candidate suffix stripping -/

/-- C9, counterexample: `re.sub(r"rc\d", "", …)` removes `rc` plus a single
digit, so the ref `release-7.1.0rc12` resolves to `7.1.02`, not `7.1.0` as
the claim (which allows `rc<digits>`) predicts. -/
theorem resolveReleaseBranch_cex :
    resolveReleaseBranch? ("release-7.1.0rc12".toList) = some ("7.1.02".toList)
    ∧ some ("7.1.02".toList) ≠ some ("7.1.0".toList) := by decide

theorem subRcDigit_append_rc (d : Char) (hd : d.isDigit = true) :
    ∀ base : Str, hasRcDigit base = false →
      subRcDigit (base ++ ['r', 'c', d]) = base := by
  have key : ∀ (n : Nat) (base : Str), base.length ≤ n → hasRcDigit base = false →
      subRcDigit (base ++ ['r', 'c', d]) = base := by
    intro n
    induction n with
    | zero =>
      intro base hlen _
      have : base = [] := List.eq_nil_of_length_eq_zero (Nat.le_zero.mp hlen)
      subst this
      simp [subRcDigit, hd]
    | succ n ih =>
      intro base hlen h
      match base with
      | [] =>
        show subRcDigit ['r', 'c', d] = []
        rw [subRcDigit, if_pos ⟨rfl, rfl, hd⟩]
        rfl
      | [c] =>
        show subRcDigit [c, 'r', 'c', d] = [c]
        rw [subRcDigit, if_neg (by rintro ⟨-, h2, -⟩; exact absurd h2 (by decide))]
        rw [subRcDigit, if_pos ⟨rfl, rfl, hd⟩]
        rfl
      | [c1, c2] =>
        show subRcDigit [c1, c2, 'r', 'c', d] = [c1, c2]
        rw [subRcDigit, if_neg (by rintro ⟨-, -, h3⟩; exact absurd h3 (by decide))]
        rw [subRcDigit, if_neg (by rintro ⟨-, h2, -⟩; exact absurd h2 (by decide))]
        rw [subRcDigit, if_pos ⟨rfl, rfl, hd⟩]
        rfl
      | c1 :: c2 :: c3 :: rest =>
        rw [hasRcDigit] at h
        rw [List.cons_append, List.cons_append, List.cons_append, subRcDigit]
        split at h
        · exact absurd h (by simp)
        · next hcond =>
          rw [if_neg hcond]
          rw [← List.cons_append, ← List.cons_append]
          rw [ih (c2 :: c3 :: rest) (by simp at hlen ⊢; omega) h]
  exact fun base => key base.length base (Nat.le_refl _)

/-- C9, amended: stripping the `release-` prefix removes every occurrence
of `rc` followed by exactly one digit; in particular, when the remainder
ends in `rc<one digit>` and contains no other such occurrence, the result
is the remainder without that suffix (so `release-7.1.0rc2` resolves to
`7.1.0`, but `release-7.1.0rc12` leaves the extra digit behind). -/
theorem resolveReleaseBranch_rc_suffix (base : Str) (d : Char)
    (hd : d.isDigit = true) (hbase : hasRcDigit base = false) :
    resolveReleaseBranch? ("release-".toList ++ (base ++ ['r', 'c', d]))
      = some base := by
  rw [resolveReleaseBranch?, if_pos (by rfl)]
  have hdrop : ("release-".toList ++ (base ++ ['r', 'c', d])).drop 8
      = base ++ ['r', 'c', d] := rfl
  rw [hdrop, subRcDigit_append_rc d hd base hbase]

/-- C9, witness: the amended theorem applied to the claim's own example,
`release-7.1.0rc2` resolving to `7.1.0`. -/
theorem resolveReleaseBranch_rc_suffix_witness :
    resolveReleaseBranch? ("release-".toList ++ ("7.1.0".toList ++ ['r', 'c', '2']))
      = some ("7.1.0".toList) :=
  resolveReleaseBranch_rc_suffix ("7.1.0".toList) '2' (by decide) (by decide)

/-! ## C1: rollback commits and rolled-back commits emit no note -/

theorem grbGo_skip_recorded (major : Bool) (tid : Str) (tlines : List Str)
    (rest : List (Str × List Str)) :
    ∀ (mid : List (Str × List Str)) (rb acc : List Str), rb.contains tid = true →
      grbGo major (mid ++ (tid, tlines) :: rest) rb acc
        = grbGo major (mid ++ rest) rb acc := by
  intro mid
  induction mid with
  | nil =>
    intro rb acc h
    simp only [List.nil_append, grbGo, h, if_true]
  | cons p mid ih =>
    intro rb acc h
    obtain ⟨c, ls⟩ := p
    simp only [List.cons_append, grbGo]
    by_cases hc : rb.contains c
    · rw [if_pos hc, if_pos hc]
      exact ih rb acc h
    · rw [if_neg hc, if_neg hc]
      cases hrt : rollbackTarget? (ls.headD []) with
      | some t =>
        refine ih (t :: rb) acc ?_
        rw [List.contains_cons, h, Bool.or_true]
      | none =>
        cases extract_relnotes ls major with
        | some n => exact ih rb (acc ++ [n]) h
        | none => exact ih rb acc h

/-- C1: while `get_relnotes_between` walks the commit list (newest first),
a commit whose first message line matches `Automated rollback of commit
<hex-id>` contributes no note and only records `<hex-id>`, and the commit
with that identifier — wherever it appears later in the walk — is skipped
entirely, whatever RELNOTES blocks either message contains: the walk is
the same as the walk with both commits deleted and the identifier
recorded. -/
theorem get_relnotes_rollback_invariant (major : Bool) (cid tid : Str)
    (lines tlines : List Str) (mid rest : List (Str × List Str))
    (rb acc : List Str)
    (hro : rollbackTarget? (lines.headD []) = some tid)
    (hcid : rb.contains cid = false) :
    grbGo major ((cid, lines) :: (mid ++ (tid, tlines) :: rest)) rb acc
      = grbGo major (mid ++ rest) (tid :: rb) acc := by
  rw [grbGo, if_neg (by rw [hcid]; exact Bool.false_ne_true), hro]
  refine grbGo_skip_recorded major tid tlines rest mid (tid :: rb) acc ?_
  rw [List.contains_cons, beq_self_eq_true, Bool.true_or]

/-- C1, witness: the spec's example — a rollback commit whose message names
`abcdef1234` followed (earlier chronologically) by commit `abcdef1234` with
its own RELNOTES block; neither contributes, and indeed the whole walk
yields no notes. -/
theorem get_relnotes_rollback_invariant_witness :
    grbGo false
        [(("f00ba4".toList),
          ["Automated rollback of commit abcdef1234.".toList,
           "".toList, "RELNOTES: revert bad flag.".toList]),
         (("abcdef1234".toList),
          ["Cool feature".toList, "".toList, "RELNOTES: cool feature.".toList])]
        [] []
      = grbGo false [] ["abcdef1234".toList] []
    ∧ get_relnotes_between
        [(("f00ba4".toList),
          ["Automated rollback of commit abcdef1234.".toList,
           "".toList, "RELNOTES: revert bad flag.".toList]),
         (("abcdef1234".toList),
          ["Cool feature".toList, "".toList, "RELNOTES: cool feature.".toList])]
        false = [] :=
  ⟨get_relnotes_rollback_invariant false ("f00ba4".toList) ("abcdef1234".toList)
      ["Automated rollback of commit abcdef1234.".toList,
       "".toList, "RELNOTES: revert bad flag.".toList]
      ["Cool feature".toList, "".toList, "RELNOTES: cool feature.".toList]
      [] [] [] [] (by decide) (by decide),
   by decide⟩

/-! ## C3: sentinel relnote bodies -/

/-- C3, counterexample: the claim predicts that the fallback note is the
subject line with a leading version marker removed, but the code's
`re.sub(r"\[\d+\.\d+\.\d\]\s?", "", …)` removes version markers wherever
they occur: a subject with a non-leading marker has it deleted too. -/
theorem extract_relnotes_sentinel_cex :
    extract_relnotes ["Fix bug [1.2.3] now".toList, "RELNOTES: none".toList] false
        = some ("Fix bug now".toList)
    ∧ specStripLeadingVM ("Fix bug [1.2.3] now".toList) = "Fix bug [1.2.3] now".toList
    ∧ some ("Fix bug now".toList)
        ≠ some (specStripLeadingVM ("Fix bug [1.2.3] now".toList)) := by
  decide

/-- C3, amended: for every nonempty commit message whose accumulated relnote
body normalizes (strip, lowercase, strip trailing periods) to `n/a`, `none`
or the empty string, `extract_relnotes` returns `None` on a major release
and otherwise the stripped subject line with every `[digits.digits.digit]`
marker (and one following whitespace character) removed, wherever it
occurs. -/
theorem extract_relnotes_sentinel (lines : List Str) (major : Bool)
    (hs : isSentinelB (normalizeNote (joinSp (relnoteLines lines))) = true)
    (hne : lines ≠ []) :
    extract_relnotes lines major
      = if major then none else some (subVM (pyStrip (lines.headD []))) := by
  rw [extract_relnotes]
  simp only [hs, if_true]

/-- C3, witness: the spec's own example, in both release modes. -/
theorem extract_relnotes_sentinel_witness :
    extract_relnotes ["[1.2.3] Fix flag parsing bug".toList, "RELNOTES: none".toList] true
        = none
    ∧ extract_relnotes ["[1.2.3] Fix flag parsing bug".toList, "RELNOTES: none".toList] false
        = some ("Fix flag parsing bug".toList) := by
  constructor
  · rw [extract_relnotes_sentinel
      ["[1.2.3] Fix flag parsing bug".toList, "RELNOTES: none".toList] true
      (by decide) (by decide)]
    rfl
  · rw [extract_relnotes_sentinel
      ["[1.2.3] Fix flag parsing bug".toList, "RELNOTES: none".toList] false
      (by decide) (by decide)]
    decide

/-! ## C7: categorization without issue references -/

/-- C7, counterexample: on the empty note list the script builds an empty
dictionary, so the output has no "General" category at all. -/
theorem get_categorized_empty_cex :
    get_categorized_relnotes (fun _ => none) [] = some []
    ∧ get_categorized_relnotes (fun _ => none) []
        ≠ some [("General".toList, [])] := by
  decide

theorem catGo_general (getLabel : Str → Option Str) :
    ∀ (ns : List Str) (acc : List Str),
      (∀ n ∈ ns, ∃ tok, lastTok? n = some tok ∧ issueRef? tok = none) →
      catGo getLabel ns [("General".toList, acc)]
        = some [("General".toList, acc ++ ns)] := by
  intro ns
  induction ns with
  | nil =>
    intro acc _
    simp [catGo]
  | cons n ns ih =>
    intro acc h
    obtain ⟨tok, htok, href⟩ := h n (List.mem_cons_self n ns)
    rw [catGo, htok]
    simp only [href, addNote, eq_self_iff_true, if_true]
    rw [ih (acc ++ [n]) (fun m hm => h m (List.mem_cons_of_mem _ hm))]
    simp

/-- C7, amended: for every nonempty note list in which every note has at
least one whitespace-delimited token and no note ends with an issue
reference `(#digits)`, the categorization produces exactly one category,
"General", holding all notes in their original order — for any behaviour of
the external label service, which is never consulted. -/
theorem get_categorized_no_refs (getLabel : Str → Option Str) (notes : List Str)
    (hne : notes ≠ [])
    (h : ∀ n ∈ notes, ∃ tok, lastTok? n = some tok ∧ issueRef? tok = none) :
    get_categorized_relnotes getLabel notes
      = some [("General".toList, notes)] := by
  cases notes with
  | nil => exact absurd rfl hne
  | cons n ns =>
    obtain ⟨tok, htok, href⟩ := h n (List.mem_cons_self n ns)
    rw [get_categorized_relnotes, catGo, htok]
    simp only [href, addNote]
    rw [catGo_general getLabel ns [n] (fun m hm => h m (List.mem_cons_of_mem _ hm))]
    simp [List.insertionSort, List.orderedInsert]

/-- C7, witness: two plain notes, with a label service that would return a
team label if it were ever consulted. -/
theorem get_categorized_no_refs_witness :
    get_categorized_relnotes (fun _ => some ("team-X".toList))
        ["Added feature.".toList, "Fixed bug.".toList]
      = some [("General".toList,
               ["Added feature.".toList, "Fixed bug.".toList])] := by
  refine get_categorized_no_refs _ _ (by decide) ?_
  intro n hn
  rcases List.mem_cons.mp hn with rfl | hn2
  · exact ⟨"feature.".toList, by decide, by decide⟩
  · rcases List.mem_cons.mp hn2 with rfl | hn3
    · exact ⟨"bug.".toList, by decide, by decide⟩
    · exact absurd hn3 (by simp)

/-! ## Helper lemmas about stripping -/

theorem dropTrail_cons_of_neg (p : Char → Bool) (c : Char) (v : Str)
    (hc : p c = false) : ∃ w, dropTrail p (c :: v) = c :: w := by
  rw [dropTrail, List.reverse_cons, List.dropWhile_append]
  split
  · refine ⟨[], ?_⟩
    rw [List.dropWhile_cons, if_neg (by rw [hc]; exact Bool.false_ne_true)]
    rfl
  · exact ⟨(v.reverse.dropWhile p).reverse, by rw [List.reverse_append]; rfl⟩

theorem dropTrail_append_fix (p : Char → Bool) (y x : Str) (hx : x ≠ [])
    (hfix : dropTrail p x = x) : dropTrail p (y ++ x) = y ++ x := by
  have hdw : List.dropWhile p x.reverse = x.reverse := by
    have h2 := congrArg List.reverse hfix
    rwa [dropTrail, List.reverse_reverse] at h2
  rcases hrx : x.reverse with _ | ⟨c, t⟩
  · exact absurd (by simpa using congrArg List.reverse hrx) hx
  · have hpc : p c = false := by
      by_contra hpc
      rw [Bool.not_eq_false] at hpc
      rw [hrx, List.dropWhile_cons, if_pos hpc] at hdw
      have hlen := congrArg List.length hdw
      have hle := (List.dropWhile_sublist (l := t) p).length_le
      simp at hlen
      omega
    rw [dropTrail, List.reverse_append, hrx]
    rw [List.cons_append, List.dropWhile_cons,
      if_neg (by rw [hpc]; exact Bool.false_ne_true)]
    rw [← List.cons_append, ← hrx, ← List.reverse_append, List.reverse_reverse]

theorem dropWhile_idem (p : Char → Bool) (l : Str) :
    List.dropWhile p (List.dropWhile p l) = List.dropWhile p l := by
  induction l with
  | nil => rfl
  | cons c t ih =>
    rw [List.dropWhile_cons]
    split
    · exact ih
    · next h => rw [List.dropWhile_cons, if_neg h]

theorem dropTrail_idem (p : Char → Bool) (l : Str) :
    dropTrail p (dropTrail p l) = dropTrail p l := by
  simp only [dropTrail, List.reverse_reverse, dropWhile_idem]

theorem pyStrip_of_ends (c : Char) (y x : Str) (hc : isPySpace c = false)
    (hx : x ≠ []) (hfix : dropTrail isPySpace x = x) :
    pyStrip ((c :: y) ++ x) = (c :: y) ++ x := by
  rw [pyStrip, pyLstrip, List.cons_append, List.dropWhile_cons,
    if_neg (by rw [hc]; exact Bool.false_ne_true), ← List.cons_append]
  exact dropTrail_append_fix isPySpace (c :: y) x hx hfix

theorem pyStrip_incMark (r0 : Str) :
    ∃ t0, pyStrip ("**[Incompatible]** ".toList ++ pyStrip r0)
        = "**[Incompatible]**".toList ++ t0 := by
  rcases ha : pyStrip r0 with _ | ⟨c, v⟩
  · refine ⟨[], ?_⟩
    decide
  · refine ⟨' ' :: c :: v, ?_⟩
    have hfix : dropTrail isPySpace (c :: v) = c :: v := by
      rw [← ha]
      exact dropTrail_idem isPySpace (pyLstrip r0)
    exact pyStrip_of_ends '*' ("*[Incompatible]** ".toList) (c :: v)
      (by decide) (by simp) hfix

theorem not_sentinel_star (v : Str) :
    isSentinelB (normalizeNote ('*' :: v)) = false := by
  obtain ⟨w, hw⟩ : ∃ w, pyStrip ('*' :: v) = '*' :: w := by
    rw [pyStrip, pyLstrip, List.dropWhile_cons, if_neg (by decide)]
    exact dropTrail_cons_of_neg isPySpace '*' v (by decide)
  obtain ⟨w2, hw2⟩ : ∃ w2, normalizeNote ('*' :: v) = '*' :: w2 := by
    rw [normalizeNote, hw, toLowerStr, List.map_cons]
    exact dropTrail_cons_of_neg (fun d => d == '.') '*' _ (by decide)
  rw [hw2, isSentinelB]
  simp only [Bool.or_eq_false_iff]
  refine ⟨⟨?_, ?_⟩, rfl⟩
  · rw [beq_eq_false_iff_ne]
    intro hcon
    rw [show ("n/a".toList) = 'n' :: "/a".toList from rfl] at hcon
    exact absurd (List.head_eq_of_cons_eq hcon) (by decide)
  · rw [beq_eq_false_iff_ne]
    intro hcon
    rw [show ("none".toList) = 'n' :: "one".toList from rfl] at hcon
    exact absurd (List.head_eq_of_cons_eq hcon) (by decide)

theorem ite_acc_right (P : Prop) [Decidable P] (acc : List Str) (y : Str) :
    ∃ s, (if P then acc else acc ++ [y]) = acc ++ s := by
  by_cases h : P
  · exact ⟨[], by rw [if_pos h, List.append_nil]⟩
  · exact ⟨[y], by rw [if_neg h]⟩

theorem ite_acc_left (P : Prop) [Decidable P] (acc : List Str) (y : Str) :
    ∃ s, (if P then acc ++ [y] else acc) = acc ++ s := by
  by_cases h : P
  · exact ⟨[y], by rw [if_pos h]⟩
  · exact ⟨[], by rw [if_neg h, List.append_nil]⟩

theorem relnoteStep_acc (st : Bool × List Str) (l : Str) :
    ∃ s, (relnoteStep st l).2 = st.2 ++ s := by
  rw [relnoteStep]
  cases relnotesMatch? l with
  | some q => exact ite_acc_right _ st.2 _
  | none => exact ite_acc_left _ st.2 _

theorem foldl_relnoteStep_acc (ls : List Str) :
    ∀ st : Bool × List Str, ∃ t, (ls.foldl relnoteStep st).2 = st.2 ++ t := by
  induction ls with
  | nil => exact fun st => ⟨[], by simp⟩
  | cons l ls ih =>
    intro st
    rw [List.foldl_cons]
    obtain ⟨s, hs⟩ := relnoteStep_acc st l
    obtain ⟨t, ht⟩ := ih (relnoteStep st l)
    exact ⟨s ++ t, by rw [ht, hs, List.append_assoc]⟩

theorem joinSp_cons (x : Str) (xs : List Str) :
    ∃ j, joinSp (x :: xs) = x ++ j := by
  cases xs with
  | nil => exact ⟨[], by simp [joinSp]⟩
  | cons y ys => exact ⟨' ' :: joinSp (y :: ys), rfl⟩

/-! ## C6: RELNOTES[INC] blocks -/

/-- C6, counterexample: when a plain RELNOTES block precedes the
RELNOTES[INC] block in the same message, the joined note starts with the
plain block's text, not with the incompatibility marker. -/
theorem extract_relnotes_inc_cex :
    extract_relnotes
        ["RELNOTES: aaa".toList, "".toList, "RELNOTES[INC]: bbb".toList] false
      = some ("aaa **[Incompatible]** bbb".toList)
    ∧ ("aaa **[Incompatible]** bbb".toList).take 18
        ≠ "**[Incompatible]**".toList := by
  decide

/-- C6, amended: for every commit message containing a `RELNOTES[INC]:`
line, provided no relnote content was captured from the lines before it,
the extracted note begins with the incompatibility marker
`**[Incompatible]**`. -/
theorem extract_relnotes_inc (before after : List Str) (r0 : Str) (major : Bool)
    (hb : relnoteLines before = []) :
    ∃ rest, extract_relnotes (before ++ ("RELNOTES[INC]:".toList ++ r0) :: after) major
        = some ("**[Incompatible]**".toList ++ rest) := by
  obtain ⟨t0, ht0⟩ := pyStrip_incMark r0
  rcases hfold : before.foldl relnoteStep (false, []) with ⟨b0, acc0⟩
  have hacc0 : acc0 = [] := by
    rw [relnoteLines, hfold] at hb
    exact hb
  subst hacc0
  have hstep : relnoteStep (b0, []) ("RELNOTES[INC]:".toList ++ r0)
      = (true, ["**[Incompatible]**".toList ++ t0]) := by
    rw [relnoteStep,
      show relnotesMatch? ("RELNOTES[INC]:".toList ++ r0) = some (RelQual.inc, 14)
        from rfl]
    dsimp only
    rw [show ("RELNOTES[INC]:".toList ++ r0).drop 14 = r0 from rfl, if_pos rfl, ht0]
    rw [if_neg (by simp)]
    rfl
  have hlines : ∃ t, relnoteLines (before ++ ("RELNOTES[INC]:".toList ++ r0) :: after)
      = ("**[Incompatible]**".toList ++ t0) :: t := by
    rw [relnoteLines, List.foldl_append, hfold, List.foldl_cons, hstep]
    obtain ⟨t, ht⟩ := foldl_relnoteStep_acc after (true, ["**[Incompatible]**".toList ++ t0])
    exact ⟨t, by rw [ht]; rfl⟩
  obtain ⟨t, ht⟩ := hlines
  obtain ⟨j, hj⟩ := joinSp_cons ("**[Incompatible]**".toList ++ t0) t
  have hjoined : joinSp (relnoteLines (before ++ ("RELNOTES[INC]:".toList ++ r0) :: after))
      = "**[Incompatible]**".toList ++ (t0 ++ j) := by
    rw [ht, hj, List.append_assoc]
  have hsent : isSentinelB (normalizeNote
      (joinSp (relnoteLines (before ++ ("RELNOTES[INC]:".toList ++ r0) :: after)))) = false := by
    rw [hjoined]
    exact not_sentinel_star _
  rw [extract_relnotes]
  simp only [hsent, Bool.false_eq_true, if_false]
  cases htk : lastTok? ((before ++ ("RELNOTES[INC]:".toList ++ r0) :: after).headD []) with
  | none =>
    dsimp only
    exact ⟨t0 ++ j, by rw [hjoined]⟩
  | some tok =>
    dsimp only
    cases hrf : issueRef? tok with
    | none =>
      dsimp only
      exact ⟨t0 ++ j, by rw [hjoined]⟩
    | some refT =>
      dsimp only
      refine ⟨(t0 ++ j) ++ ' ' :: pyStrip refT, ?_⟩
      rw [hjoined, List.append_assoc]

/-- C6, witness: a message whose only relnotes block is an INC block. -/
theorem extract_relnotes_inc_witness :
    ∃ rest, extract_relnotes
        [("RELNOTES[INC]:".toList ++ " breaking change.".toList)] false
      = some ("**[Incompatible]**".toList ++ rest) :=
  extract_relnotes_inc [] [] (" breaking change.".toList) false rfl

/-! ## C2: plain RELNOTES blocks -/

theorem startsWith_iff_append : ∀ (p s : Str), startsWith p s = true ↔ ∃ t, s = p ++ t := by
  intro p
  induction p with
  | nil =>
    intro s
    simp [startsWith]
  | cons c cs ih =>
    intro s
    cases s with
    | nil =>
      rw [startsWith]
      simp
    | cons d ds =>
      rw [startsWith]
      constructor
      · intro h
        rw [Bool.and_eq_true, beq_iff_eq] at h
        obtain ⟨rfl, h2⟩ := h
        obtain ⟨t, rfl⟩ := (ih ds).mp h2
        exact ⟨t, rfl⟩
      · rintro ⟨t, ht⟩
        rw [List.cons_append, List.cons_eq_cons] at ht
        obtain ⟨rfl, rfl⟩ := ht
        rw [Bool.and_eq_true, beq_iff_eq]
        exact ⟨rfl, (ih _).mpr ⟨t, rfl⟩⟩

theorem resets_no_marker (term : Str) (h : lineResets term = true) :
    relnotesMatch? term = none := by
  rw [lineResets, Bool.or_eq_true] at h
  rcases h with h | h
  · rw [List.isEmpty_iff.mp h]
    rfl
  · obtain ⟨t, rfl⟩ := (startsWith_iff_append _ term).mp h
    rfl

theorem foldl_relnoteStep_no_marker : ∀ (ls : List Str) (acc : List Str),
    (∀ l ∈ ls, relnotesMatch? l = none) →
    ls.foldl relnoteStep (false, acc) = (false, acc) := by
  intro ls
  induction ls with
  | nil => intro acc _; rfl
  | cons l ls ih =>
    intro acc h
    rw [List.foldl_cons]
    have hstep : relnoteStep (false, acc) l = (false, acc) := by
      rw [relnoteStep, h l (List.mem_cons_self l ls)]
      simp
    rw [hstep]
    exact ih acc (fun m hm => h m (List.mem_cons_of_mem _ hm))

theorem foldl_relnoteStep_in_block : ∀ (ls : List Str) (acc : List Str),
    (∀ l ∈ ls, relnotesMatch? l = none ∧ lineResets l = false) →
    ls.foldl relnoteStep (true, acc) = (true, acc ++ captureLines ls) := by
  intro ls
  induction ls with
  | nil => intro acc _; simp [captureLines]
  | cons l ls ih =>
    intro acc h
    obtain ⟨hm, hr⟩ := h l (List.mem_cons_self l ls)
    rw [List.foldl_cons]
    by_cases hX : (pyStrip l).isEmpty = true
    · have hstep : relnoteStep (true, acc) l = (true, acc) := by
        rw [relnoteStep, hm]
        simp [hr, hX]
      rw [hstep, ih acc (fun m hm2 => h m (List.mem_cons_of_mem _ hm2))]
      simp [captureLines, List.filter_cons, hX]
    · have hstep : relnoteStep (true, acc) l = (true, acc ++ [pyStrip l]) := by
        rw [relnoteStep, hm]
        simp [hr, hX]
      rw [hstep, ih (acc ++ [pyStrip l]) (fun m hm2 => h m (List.mem_cons_of_mem _ hm2))]
      simp [captureLines, List.filter_cons, hX, List.append_assoc]

/-- C2, counterexample: when the subject line ends with an issue reference,
the reference is appended to the extracted note, so the note is not the
joined block content alone. -/
theorem extract_relnotes_block_cex :
    extract_relnotes
        ["Fix parser (#99)".toList, "".toList,
         "RELNOTES: Improved parsing.".toList, "".toList] false
      = some ("Improved parsing. (#99)".toList)
    ∧ "Improved parsing. (#99)".toList ≠ "Improved parsing.".toList := by
  decide

/-- C2, amended: for every commit message consisting of lines without any
RELNOTES marker, then a `RELNOTES:` line, then block lines (no marker, not
blank, no provenance prefix), then a terminator (blank or
`PiperOrigin-RevId:` line), then lines without any RELNOTES marker, the
extracted note is the block's non-blank lines (each stripped) joined with
single spaces — provided the joined text does not normalize to a sentinel
and the subject line's last token carries no issue reference (otherwise the
sentinel fallback or the appended reference changes the result). -/
theorem extract_relnotes_block (before body after : List Str) (r0 term : Str)
    (major : Bool)
    (hbefore : ∀ l ∈ before, relnotesMatch? l = none)
    (hbody : ∀ l ∈ body, relnotesMatch? l = none ∧ lineResets l = false)
    (hterm : lineResets term = true)
    (hafter : ∀ l ∈ after, relnotesMatch? l = none)
    (hns : isSentinelB (normalizeNote (joinSp (captureLines (r0 :: body)))) = false)
    (htok : ∀ tok,
      lastTok? ((before ++ ("RELNOTES:".toList ++ r0) :: (body ++ term :: after)).headD [])
        = some tok → issueRef? tok = none) :
    extract_relnotes (before ++ ("RELNOTES:".toList ++ r0) :: (body ++ term :: after)) major
      = some (joinSp (captureLines (r0 :: body))) := by
  have hstep1 : relnoteStep (false, []) ("RELNOTES:".toList ++ r0)
      = (true, if (pyStrip r0).isEmpty then [] else [pyStrip r0]) := by
    rw [relnoteStep,
      show relnotesMatch? ("RELNOTES:".toList ++ r0) = some (RelQual.plain, 9) from rfl]
    dsimp only
    rw [show ("RELNOTES:".toList ++ r0).drop 9 = r0 from rfl]
    rw [if_neg (show ¬(RelQual.plain = RelQual.inc) from by decide)]
    simp
  have hstep2 : ∀ acc2 : List Str, relnoteStep (true, acc2) term = (false, acc2) := by
    intro acc2
    rw [relnoteStep, resets_no_marker term hterm]
    simp [hterm]
  have hcap : (if (pyStrip r0).isEmpty then ([] : List Str) else [pyStrip r0])
      ++ captureLines body = captureLines (r0 :: body) := by
    by_cases hX : (pyStrip r0).isEmpty = true
    · simp [captureLines, List.filter_cons, hX]
    · simp [captureLines, List.filter_cons, hX]
  have hlines : relnoteLines
      (before ++ ("RELNOTES:".toList ++ r0) :: (body ++ term :: after))
      = captureLines (r0 :: body) := by
    rw [relnoteLines, List.foldl_append, foldl_relnoteStep_no_marker before [] hbefore,
      List.foldl_cons, hstep1, List.foldl_append,
      foldl_relnoteStep_in_block body _ hbody, List.foldl_cons, hstep2,
      foldl_relnoteStep_no_marker after _ hafter, hcap]
  rw [extract_relnotes, hlines]
  simp only [hns, Bool.false_eq_true, if_false]
  cases htk : lastTok?
      ((before ++ ("RELNOTES:".toList ++ r0) :: (body ++ term :: after)).headD []) with
  | none => rfl
  | some tok =>
    dsimp only
    rw [htok tok htk]

/-- C2, witness: a single plain block terminated by a blank line, in a
message whose subject carries no issue reference. -/
theorem extract_relnotes_block_witness :
    extract_relnotes ["RELNOTES: Did a thing.".toList, "".toList] false
      = some ("Did a thing.".toList) := by
  have h := extract_relnotes_block [] [] [] (" Did a thing.".toList) ("".toList) false
    (by simp) (by simp) (by decide) (by simp) (by decide)
    (fun tok htk => by
      rw [show lastTok?
          ((([] : List Str)
            ++ ("RELNOTES:".toList ++ " Did a thing.".toList) :: ([] ++ "".toList :: [])).headD [])
          = some ("thing.".toList) from by decide] at htk
      cases htk
      decide)
  rw [show some (joinSp (captureLines [" Did a thing.".toList]))
      = some ("Did a thing.".toList) from by decide] at h
  exact h

/-! ## C8: external author aggregation -/

/-- C8, counterexample: the co-author filter is
`re.search("@google.com", coauthor)`, whose unescaped dot matches any
character, so the line `Co-authored-by: Bob <bob@googleXcom>` is excluded
by the code even though it does not contain the literal domain
`@google.com` — the claim's "every co-author line containing that domain"
does not characterize the filter. -/
theorem coauthor_domain_cex :
    containsSub ("Co-authored-by: Bob <bob@googleXcom>".toList)
        ("@google.com".toList) = false
    ∧ searchGoogleDomain ("Co-authored-by: Bob <bob@googleXcom>".toList) = true
    ∧ coauthorNames ["Co-authored-by: Bob <bob@googleXcom>".toList] = []
    ∧ get_external_authors_between []
        ["Co-authored-by: Bob <bob@googleXcom>".toList] = [] := by
  decide

/-- C8, amended: the acknowledgement string is the comma-space join of a
list that is sorted case-insensitively, duplicate-free, and contains
exactly the union (under exact string equality) of the filtered
primary-author names (lines not ending in the literal `@google.com`, name
part before `|`, right-stripped) and the cleaned co-author names (nonempty
trailer lines on which the `@google.com` regex search fails — its
unescaped dot excludes `@google` + any character + `com` — with the
`Co-authored-by: ` text and angle-bracketed spans removed and whitespace
collapsed). -/
theorem get_external_authors_spec (authorLines coauthorLines : List Str) :
    ∃ l : List Str,
      get_external_authors_between authorLines coauthorLines = joinCommaSp l
      ∧ List.Pairwise CfLeP l
      ∧ l.Nodup
      ∧ ∀ x, x ∈ l ↔
          x ∈ primaryAuthors authorLines ∨ x ∈ coauthorNames coauthorLines := by
  refine ⟨List.insertionSort CfLeP
      (unionNames (primaryAuthors authorLines) (coauthorNames coauthorLines)),
    rfl, ?_, ?_, ?_⟩
  · exact List.sorted_insertionSort CfLeP _
  · exact ((List.perm_insertionSort CfLeP _).nodup_iff).mpr (List.nodup_dedup _)
  · intro x
    rw [(List.perm_insertionSort CfLeP _).mem_iff, unionNames, List.mem_dedup,
      List.mem_append]

/-! ## C10: wrap-around of the last-release index -/

theorem sorted_le_getLast : ∀ (l : List Str), List.Pairwise LexLeP l →
    ∀ (h : l ≠ []) (x : Str), x ∈ l → lexLe x (l.getLast h) = true := by
  intro l
  induction l with
  | nil => intro _ h; exact absurd rfl h
  | cons a t ih =>
    intro hp h x hx
    rcases List.pairwise_cons.mp hp with ⟨ha, hp2⟩
    cases t with
    | nil =>
      have hxa : x = a := by simpa using hx
      subst hxa
      rw [List.getLast_singleton]
      exact lexLe_refl x
    | cons b t2 =>
      rw [List.getLast_cons (by simp)]
      rcases List.mem_cons.mp hx with rfl | hx2
      · exact ha _ (List.getLast_mem _)
      · exact ih hp2 (by simp) x hx2

/-- C10: when `current` is absent from the tag list and sorts strictly
before every tag, the `tags[tags.index(current) - 1]` lookup hits index
`-1`, which Python wraps to the end of the list: the selected last release
is the lexicographically greatest tag, not an error and not a smaller
tag. -/
theorem lastRelease_wraps_to_greatest (tags : List Str) (current : Str)
    (hmem : current ∉ tags) (hne : tags ≠ [])
    (hlt : ∀ t ∈ tags, lexLt current t = true) :
    ∃ m, lastRelease? tags current = some m ∧ m ∈ tags
      ∧ ∀ t ∈ tags, lexLe t m = true := by
  have hc : tags.contains current = false := by
    cases hcon : tags.contains current with
    | false => rfl
    | true => exact absurd (List.mem_of_elem_eq_true hcon) hmem
  have hperm : List.Perm (List.insertionSort LexLeP (tags ++ [current]))
      (tags ++ [current]) :=
    List.perm_insertionSort _ _
  have hsorted := List.sorted_insertionSort LexLeP (tags ++ [current])
  rcases hts : List.insertionSort LexLeP (tags ++ [current]) with _ | ⟨h0, t⟩
  · exfalso
    have hlen := hperm.length_eq
    rw [hts] at hlen
    simp [List.length_append] at hlen
  · rw [hts] at hperm hsorted
    have hh0 : h0 = current := by
      by_contra hne2
      have hh0mem : h0 ∈ tags ++ [current] :=
        hperm.mem_iff.mp (List.mem_cons_self _ _)
      have hh0tags : h0 ∈ tags := by
        rcases List.mem_append.mp hh0mem with h | h
        · exact h
        · exact absurd (by simpa using h) hne2
      have hcur_mem : current ∈ h0 :: t :=
        hperm.mem_iff.mpr (List.mem_append.mpr (Or.inr (List.mem_cons_self _ _)))
      have hcur_t : current ∈ t := by
        rcases List.mem_cons.mp hcur_mem with h | h
        · exact absurd h.symm hne2
        · exact h
      have hle : lexLe h0 current = true :=
        (List.pairwise_cons.mp hsorted).1 current hcur_t
      rw [lexLt_not_le current h0 (hlt h0 hh0tags)] at hle
      exact Bool.false_ne_true hle
    subst hh0
    have htperm : t.Perm tags := by
      have h2 : List.Perm (h0 :: t) (h0 :: tags) :=
        hperm.trans (List.perm_append_singleton h0 tags)
      exact h2.cons_inv
    have htne : t ≠ [] := by
      intro h0eq
      subst h0eq
      exact hne htperm.symm.eq_nil
    refine ⟨(h0 :: t).getLast (by simp), ?_, ?_, ?_⟩
    · rw [lastRelease?, if_neg (by rw [hc]; exact Bool.false_ne_true), hts]
      dsimp only
      rw [show pyIndex (h0 :: t) h0 = 0 from by simp [pyIndex], if_pos rfl,
        List.getLast?_eq_getLast _ (by simp)]
    · have hlast_t : (h0 :: t).getLast (by simp) ∈ t := by
        rw [List.getLast_cons htne]
        exact List.getLast_mem _
      exact htperm.mem_iff.mp hlast_t
    · intro t' ht'
      exact sorted_le_getLast (h0 :: t) hsorted (by simp) t'
        (hperm.mem_iff.mpr (List.mem_append.mpr (Or.inl ht')))

/-- C10, witness: `current = "1.9.9"` sorts before both existing tags, and
the selected last release is the greatest tag `"3.0.0"`. -/
theorem lastRelease_wraps_witness :
    ∃ m, lastRelease? ["2.0.0".toList, "3.0.0".toList] ("1.9.9".toList) = some m
      ∧ m ∈ ["2.0.0".toList, "3.0.0".toList]
      ∧ ∀ t ∈ ["2.0.0".toList, "3.0.0".toList], lexLe t m = true :=
  lastRelease_wraps_to_greatest ["2.0.0".toList, "3.0.0".toList] ("1.9.9".toList)
    (by decide) (by decide) (by decide)

end Relnotes
